import Mathlib

/-!
# Verification of the Lotofácil statistics engine

Shallow embedding of `src/utils/statistics.ts` (`calculateStatistics`) and the
constants of `constants.ts` (`LOTOFACIL_CONFIG`), together with proofs of the
spec's claims about it.

Modelling conventions:
* JavaScript numbers that only ever hold non-negative integers (drawn numbers,
  counts, sums) are modelled as `Nat`; contest identifiers, which may be
  negative for synthetic entries, as `Int`.
* Fields of the report that are produced by division (`parity`, `sumAvg`,
  `sumMedian`) are modelled by `JSNum`: either an exact rational or `NaN`.
  The only degenerate division the source can perform is `0 / 0` (totals over
  an empty draw list), which in JavaScript is `NaN`; `x / 0` with `x ≠ 0` is
  unreachable, so no infinity value is needed.
* A JavaScript `Record<number, number>` built incrementally with
  `m[k] = (m[k] || 0) + 1` is modelled as an association list in key-insertion
  order (`bump` mirrors the update, `getOr0` mirrors the `m[k] || 0` read).
  `Object.keys` on such a record lists integer-like keys in ascending numeric
  order (array-index key order); `jsMode` models that with an explicit sort.
* The `Map<string, number[]>` keyed by `sorted.join(',')` is modelled as an
  association list keyed by the sorted number list itself: joining decimal
  numerals with `','` is injective on lists of naturals, so the string key and
  the sorted list are in bijection, and `split(',').map(Number)` recovers
  exactly the key list.
* `draw.numbers.sort((a, b) => a - b)` (statistics.ts line 26) sorts the
  caller's array **in place**.  All later reads in the same iteration
  (`draw.numbers.forEach`, the repeat filter, the `Set` built from the
  previous draw's numbers) therefore see the sorted array; the embedding of
  the loop body uses the sorted list throughout to match.  The report itself
  is insensitive to this (every read is permutation-invariant), but the
  caller's arrays are left reordered; `numbersAfterCalculateStatistics`
  models that post-call state.
* `sumStdDev` is omitted from the embedded report: it is the only field that
  needs `Math.sqrt`, and no claim mentions it.
-/

/-- A JavaScript number that is either an exact value (modelled as a rational)
or `NaN`. -/
inductive JSNum where
  | nan : JSNum
  | num : ℚ → JSNum
deriving DecidableEq

/-- JavaScript division as used by the source: both divisions divide a running
total by `draws.length`, and when the divisor is `0` the dividend is also `0`,
so the degenerate case is `0 / 0 = NaN`. -/
def jsDiv (a b : ℚ) : JSNum :=
  if b = 0 then JSNum.nan else JSNum.num (a / b)

/-- JavaScript addition on possibly-NaN values: `NaN` is absorbing. -/
def JSNum.add : JSNum → JSNum → JSNum
  | JSNum.num a, JSNum.num b => JSNum.num (a + b)
  | _, _ => JSNum.nan

instance : Add JSNum := ⟨JSNum.add⟩

/-- `interface LotofacilDraw` from `types.ts`: contest identifier (an integer,
possibly negative for synthetic entries), opaque date string, and the ordered
number sequence. -/
structure LotofacilDraw where
  concurso : Int
  data : String
  numbers : List Nat
deriving DecidableEq

/-- `interface DuplicateEntry` from `types.ts`. -/
structure DuplicateEntry where
  numbers : List Nat
  concursos : List Int
deriving DecidableEq

/-- `interface Statistics` from `types.ts`, with `parity` flattened into its
two components and `sumStdDev` omitted (see module docstring). -/
structure Statistics where
  frequency : List (Nat × Nat)
  parityEven : JSNum
  parityOdd : JSNum
  sumAvg : JSNum
  sumMedian : JSNum
  sumMode : List Nat
  primeCount : List (Nat × Nat)
  repeatsFromPrevious : List Nat
  duplicates : List DuplicateEntry

/-- `LOTOFACIL_CONFIG.PRIME_NUMBERS` from `constants.ts`. -/
def PRIME_NUMBERS : List Nat := [2, 3, 5, 7, 11, 13, 17, 19, 23]

/-- `array.sort((a, b) => a - b)` on a numeric array: ascending order.  On
natural numbers the result of any comparison sort is the unique sorted
permutation, so insertion sort models it exactly. -/
def sortNumbers (l : List Nat) : List Nat := List.insertionSort (· ≤ ·) l

/-- Read of a JavaScript number-valued record with default, `m[k] || 0`. -/
def getOr0 : List (Nat × Nat) → Nat → Nat
  | [], _ => 0
  | p :: ps, k => if p.1 = k then p.2 else getOr0 ps k

/-- Whether a record has an own property `k` (so that `m[k]` is defined). -/
def hasKey : List (Nat × Nat) → Nat → Bool
  | [], _ => false
  | p :: ps, k => p.1 = k || hasKey ps k

/-- `m[k] = (m[k] || 0) + 1`: update in place when the key exists (JavaScript
objects keep the key's position), append a fresh key otherwise. -/
def bump : List (Nat × Nat) → Nat → List (Nat × Nat)
  | [], k => [(k, 1)]
  | p :: ps, k => if p.1 = k then (p.1, p.2 + 1) :: ps else p :: bump ps k

/-- One record update per visited number, in visit order. -/
def bumpAll (m : List (Nat × Nat)) (l : List Nat) : List (Nat × Nat) :=
  l.foldl bump m

/-- `combinationsMap.get(comboKey) || []`. -/
def getConc : List (List Nat × List Int) → List Nat → List Int
  | [], _ => []
  | p :: ps, k => if p.1 = k then p.2 else getConc ps k

/-- Whether the combinations map already holds the key. -/
def hasCombo : List (List Nat × List Int) → List Nat → Bool
  | [], _ => false
  | p :: ps, k => p.1 = k || hasCombo ps k

/-- `combinationsMap.set(comboKey, [...existing, draw.concurso])`: a `Map`
keeps an existing key's position and appends a new key at the end. -/
def addCombo : List (List Nat × List Int) → List Nat → Int → List (List Nat × List Int)
  | [], k, c => [(k, [c])]
  | p :: ps, k, c =>
      if p.1 = k then (p.1, p.2 ++ [c]) :: ps else p :: addCombo ps k c

/-- `frequency` initialisation: `for (let i = 1; i <= 25; i++) frequency[i] = 0`. -/
def freqInit : List (Nat × Nat) := (List.range 25).map (fun i => (i + 1, 0))

/-- The accumulators of the single forward pass of `calculateStatistics`. -/
structure AggState where
  frequency : List (Nat × Nat)
  totalEven : Nat
  totalOdd : Nat
  totalSum : Nat
  sums : List Nat
  primeCountMap : List (Nat × Nat)
  repeats : List Nat
  combinationsMap : List (List Nat × List Int)

/-- Initial accumulator state (statistics.ts lines 6–17). -/
def initState : AggState :=
  { frequency := freqInit
    totalEven := 0
    totalOdd := 0
    totalSum := 0
    sums := []
    primeCountMap := []
    repeats := []
    combinationsMap := [] }

/-- Body of `draws.forEach` (statistics.ts lines 19–48).  `prev` is the
previous draw's number array as it stands when this iteration reads it — i.e.
already sorted by the previous iteration's line 26 (membership, which is all
the `Set` is used for, is unaffected).  Line 26 sorts `draw.numbers` in place
before any other read of it, so every later read in the body sees `sorted`. -/
def stepDraw (prev : Option (List Nat)) (st : AggState) (d : LotofacilDraw) : AggState :=
  let sorted := sortNumbers d.numbers
  let drawEven := (sorted.filter (fun n => n % 2 == 0)).length
  let drawOdd := (sorted.filter (fun n => !(n % 2 == 0))).length
  let drawSum := sorted.sum
  let drawPrimes := (sorted.filter (fun n => PRIME_NUMBERS.contains n)).length
  { frequency := bumpAll st.frequency sorted
    totalEven := st.totalEven + drawEven
    totalOdd := st.totalOdd + drawOdd
    totalSum := st.totalSum + drawSum
    sums := st.sums ++ [drawSum]
    primeCountMap := bump st.primeCountMap drawPrimes
    repeats :=
      match prev with
      | none => st.repeats
      | some p => st.repeats ++ [(sorted.filter (fun n => p.contains n)).length]
    combinationsMap := addCombo st.combinationsMap sorted d.concurso }

/-- The forward pass over all draws, threading the previous draw's (sorted)
number array for the `idx > 0` repeat computation. -/
def aggregate (prev : Option (List Nat)) (st : AggState) : List LotofacilDraw → AggState
  | [] => st
  | d :: ds => aggregate (some (sortNumbers d.numbers)) (stepDraw prev st d) ds

/-- Median of the per-draw sums (statistics.ts lines 56–61): sort ascending,
take the middle element for odd length, the mean of the two middle elements
for even length.  On the empty list the even branch reads `sortedSums[-1]`
and `sortedSums[0]`, both `undefined`, and `(undefined + undefined) / 2` is
`NaN`. -/
def jsMedian (sums : List Nat) : JSNum :=
  let sorted := sortNumbers sums
  let mid := sorted.length / 2
  if sorted.length % 2 ≠ 0 then
    match sorted.get? mid with
    | some v => JSNum.num (v : ℚ)
    | none => JSNum.nan
  else
    match sorted.get? (mid - 1), sorted.get? mid with
    | some a, some b => JSNum.num (((a : ℚ) + (b : ℚ)) / 2)
    | _, _ => JSNum.nan

/-- The sum-value histogram (statistics.ts lines 64–69). -/
def sumFreq (sums : List Nat) : List (Nat × Nat) := bumpAll [] sums

/-- `maxFreq`: the source tracks the running maximum of the value just
written; since values only ever grow, that equals the maximum over the final
histogram's values (`0` on the empty histogram). -/
def maxFreq (m : List (Nat × Nat)) : Nat := m.foldl (fun acc p => max acc p.2) 0

/-- Mode of the per-draw sums (statistics.ts lines 70–72):
`Object.keys(sumFreq)` lists the integer-like keys in ascending numeric order
(array-index key order — per-draw sums are bounded well below `2^32 - 1`),
then keys whose frequency equals `maxFreq` are kept. -/
def jsMode (sums : List Nat) : List Nat :=
  let m := sumFreq sums
  (sortNumbers (m.map (fun p => p.1))).filter (fun s => getOr0 m s == maxFreq m)

/-- `calculateStatistics` from `src/utils/statistics.ts`. -/
def calculateStatistics (draws : List LotofacilDraw) : Statistics :=
  let st := aggregate none initState draws
  let n : ℚ := (draws.length : ℚ)
  { frequency := st.frequency
    parityEven := jsDiv (st.totalEven : ℚ) n
    parityOdd := jsDiv (st.totalOdd : ℚ) n
    sumAvg := jsDiv (st.totalSum : ℚ) n
    sumMedian := jsMedian st.sums
    sumMode := jsMode st.sums
    primeCount := st.primeCountMap
    repeatsFromPrevious := st.repeats
    duplicates :=
      (st.combinationsMap.filter (fun p => 1 < p.2.length)).map
        (fun p => { numbers := p.1, concursos := p.2 }) }

/-- The contents of a draw's `numbers` array after `calculateStatistics`
returns: line 26 (`draw.numbers.sort((a, b) => a - b)`) sorts the caller's
array in place while building the duplicate-detection key, so the stored
sequence ends up in ascending order. -/
def numbersAfterCalculateStatistics (d : LotofacilDraw) : List Nat :=
  sortNumbers d.numbers

/-! ## Basic lemmas about the sorting model -/

lemma sortNumbers_perm (l : List Nat) : (sortNumbers l).Perm l :=
  List.perm_insertionSort _ l

lemma sortNumbers_sorted (l : List Nat) : List.Sorted (· ≤ ·) (sortNumbers l) :=
  List.sorted_insertionSort _ l

lemma sortNumbers_length (l : List Nat) : (sortNumbers l).length = l.length :=
  (sortNumbers_perm l).length_eq

lemma sortNumbers_sum (l : List Nat) : (sortNumbers l).sum = l.sum :=
  (sortNumbers_perm l).sum_eq

lemma mem_sortNumbers {a : Nat} {l : List Nat} : a ∈ sortNumbers l ↔ a ∈ l :=
  (sortNumbers_perm l).mem_iff

lemma sortNumbers_eq_of_perm {l₁ l₂ : List Nat} (h : l₁.Perm l₂) :
    sortNumbers l₁ = sortNumbers l₂ :=
  List.eq_of_perm_of_sorted
    ((sortNumbers_perm l₁).trans (h.trans (sortNumbers_perm l₂).symm))
    (sortNumbers_sorted l₁) (sortNumbers_sorted l₂)

lemma filter_sortNumbers_length (p : Nat → Bool) (l : List Nat) :
    ((sortNumbers l).filter p).length = (l.filter p).length :=
  ((sortNumbers_perm l).filter p).length_eq

lemma contains_sortNumbers (l : List Nat) (a : Nat) :
    (sortNumbers l).contains a = l.contains a := by
  by_cases h : a ∈ l
  · have h1 : (sortNumbers l).contains a = true := by
      simpa [List.elem_iff] using mem_sortNumbers.mpr h
    have h2 : l.contains a = true := by simpa [List.elem_iff] using h
    rw [h1, h2]
  · have h1 : ¬ (sortNumbers l).contains a = true := by
      simp [List.elem_iff, mem_sortNumbers, h]
    have h2 : ¬ l.contains a = true := by simp [List.elem_iff, h]
    rw [Bool.not_eq_true] at h1 h2
    rw [h1, h2]

lemma count_sortNumbers (l : List Nat) (a : Nat) :
    (sortNumbers l).count a = l.count a :=
  (sortNumbers_perm l).count_eq a

/-! ## Lemmas about the number-valued record model (`bump`, `getOr0`, `hasKey`) -/

/-- Sum of all values stored in a record. -/
def valsSum (m : List (Nat × Nat)) : Nat := (m.map (fun p => p.2)).sum

lemma getOr0_bump (m : List (Nat × Nat)) (k j : Nat) :
    getOr0 (bump m k) j = getOr0 m j + if k = j then 1 else 0 := by
  induction m with
  | nil => simp only [bump, getOr0]; split_ifs <;> omega
  | cons p ps ih =>
      by_cases hpk : p.1 = k
      · subst hpk
        simp only [bump, if_pos rfl, getOr0]
        split_ifs with h <;> simp [getOr0, h]
      · simp only [bump, if_neg hpk, getOr0]
        by_cases hpj : p.1 = j
        · have : ¬ k = j := fun h => hpk (h ▸ hpj)
          simp [hpj, this]
        · simp [hpj, ih]

lemma hasKey_bump (m : List (Nat × Nat)) (k j : Nat) :
    hasKey (bump m k) j = (hasKey m j || decide (k = j)) := by
  induction m with
  | nil => simp [bump, hasKey]
  | cons p ps ih =>
      by_cases hpk : p.1 = k
      · subst hpk
        simp only [bump, if_pos rfl, hasKey]
        by_cases hpj : p.1 = j <;> simp [hpj]
      · simp only [bump, if_neg hpk, hasKey, ih]
        by_cases hpj : p.1 = j <;> simp [hpj]

lemma valsSum_bump (m : List (Nat × Nat)) (k : Nat) :
    valsSum (bump m k) = valsSum m + 1 := by
  induction m with
  | nil => simp [bump, valsSum]
  | cons p ps ih =>
      by_cases hpk : p.1 = k
      · simp [bump, hpk, valsSum]
        omega
      · simp only [bump, if_neg hpk, valsSum, List.map_cons, List.sum_cons] at *
        omega

lemma bump_ne_nil (m : List (Nat × Nat)) (k : Nat) : bump m k ≠ [] := by
  cases m with
  | nil => simp [bump]
  | cons p ps => simp only [bump]; split_ifs <;> simp

/-- Keys of a record, in own-property insertion order. -/
def keysOf (m : List (Nat × Nat)) : List Nat := m.map (fun p => p.1)

lemma keysOf_bump (m : List (Nat × Nat)) (k : Nat) :
    keysOf (bump m k) = if hasKey m k then keysOf m else keysOf m ++ [k] := by
  induction m with
  | nil => simp [bump, hasKey, keysOf]
  | cons p ps ih =>
      by_cases hpk : p.1 = k
      · simp [bump, hpk, hasKey, keysOf]
      · have hh : hasKey (p :: ps) k = hasKey ps k := by simp [hasKey, hpk]
        rw [hh]
        simp only [bump, if_neg hpk, keysOf, List.map_cons]
        rw [show List.map (fun p => p.1) (bump ps k) = keysOf (bump ps k) from rfl, ih]
        split_ifs <;> simp [keysOf]

lemma hasKey_iff_mem_keysOf (m : List (Nat × Nat)) (k : Nat) :
    hasKey m k = true ↔ k ∈ keysOf m := by
  induction m with
  | nil => simp [hasKey, keysOf]
  | cons p ps ih =>
      simp only [hasKey, keysOf, List.map_cons, List.mem_cons, Bool.or_eq_true,
        decide_eq_true_eq, ih]
      constructor
      · rintro (h | h)
        · exact Or.inl h.symm
        · exact Or.inr h
      · rintro (h | h)
        · exact Or.inl h.symm
        · exact Or.inr h

lemma keysOf_bump_nodup (m : List (Nat × Nat)) (k : Nat)
    (h : (keysOf m).Nodup) : (keysOf (bump m k)).Nodup := by
  rw [keysOf_bump]
  split_ifs with hk
  · exact h
  · have : k ∉ keysOf m := fun hmem =>
      (by simpa [hk] using (hasKey_iff_mem_keysOf m k).mpr hmem)
    simpa [List.nodup_append] using ⟨h, this⟩

lemma getOr0_entry (m : List (Nat × Nat)) (h : (keysOf m).Nodup)
    {p : Nat × Nat} (hp : p ∈ m) : getOr0 m p.1 = p.2 := by
  induction m with
  | nil => simp at hp
  | cons q qs ih =>
      rcases List.mem_cons.mp hp with rfl | hp'
      · simp [getOr0]
      · have hcons : (q.1 :: keysOf qs).Nodup := by
          simpa only [keysOf, List.map_cons] using h
        have hq : q.1 ≠ p.1 := by
          have hmem : p.1 ∈ keysOf qs := List.mem_map.mpr ⟨p, hp', rfl⟩
          have hnot : q.1 ∉ keysOf qs := (List.nodup_cons.mp hcons).1
          exact fun he => hnot (he ▸ hmem)
        have h' : (keysOf qs).Nodup := (List.nodup_cons.mp hcons).2
        simp [getOr0, hq, ih h' hp']

lemma entry_of_hasKey (m : List (Nat × Nat)) (k : Nat) (h : hasKey m k = true) :
    (k, getOr0 m k) ∈ m := by
  induction m with
  | nil => simp [hasKey] at h
  | cons p ps ih =>
      by_cases hpk : p.1 = k
      · subst hpk
        simp [getOr0]
      · simp only [hasKey, Bool.or_eq_true, decide_eq_true_eq] at h
        rcases h with h | h
        · exact absurd h hpk
        · simp only [getOr0, if_neg hpk]
          exact List.mem_cons_of_mem _ (ih h)

/-! ## Lemmas about `bumpAll` and the initial frequency table -/

lemma getOr0_bumpAll (l : List Nat) : ∀ (m : List (Nat × Nat)) (k : Nat),
    getOr0 (bumpAll m l) k = getOr0 m k + l.count k := by
  induction l with
  | nil => intro m k; simp [bumpAll]
  | cons a as ih =>
      intro m k
      have : bumpAll m (a :: as) = bumpAll (bump m a) as := rfl
      rw [this, ih, getOr0_bump]
      rw [List.count_cons]
      by_cases hak : a = k
      · simp [hak]
        omega
      · simp [hak, Ne.symm hak]

lemma valsSum_bumpAll (l : List Nat) : ∀ m : List (Nat × Nat),
    valsSum (bumpAll m l) = valsSum m + l.length := by
  induction l with
  | nil => intro m; simp [bumpAll]
  | cons a as ih =>
      intro m
      have : bumpAll m (a :: as) = bumpAll (bump m a) as := rfl
      rw [this, ih, valsSum_bump]
      simp
      omega

lemma hasKey_bumpAll (l : List Nat) : ∀ (m : List (Nat × Nat)) (k : Nat),
    hasKey (bumpAll m l) k = (hasKey m k || l.contains k) := by
  induction l with
  | nil => intro m k; simp [bumpAll]
  | cons a as ih =>
      intro m k
      have : bumpAll m (a :: as) = bumpAll (bump m a) as := rfl
      rw [this, ih, hasKey_bump]
      by_cases hak : a = k
      · simp [hak]
      · have hka : ¬ k = a := fun h => hak h.symm
        simp [hak, hka]

lemma keysOf_bumpAll_nodup (l : List Nat) : ∀ m : List (Nat × Nat),
    (keysOf m).Nodup → (keysOf (bumpAll m l)).Nodup := by
  induction l with
  | nil => intro m h; simpa [bumpAll] using h
  | cons a as ih =>
      intro m h
      have : bumpAll m (a :: as) = bumpAll (bump m a) as := rfl
      rw [this]
      exact ih _ (keysOf_bump_nodup m a h)

lemma bumpAll_ne_nil (l : List Nat) : ∀ m : List (Nat × Nat),
    m ≠ [] → bumpAll m l ≠ [] := by
  induction l with
  | nil => intro m h; simpa [bumpAll] using h
  | cons a as ih =>
      intro m _
      have : bumpAll m (a :: as) = bumpAll (bump m a) as := rfl
      rw [this]
      exact ih _ (bump_ne_nil m a)

lemma getOr0_of_all_zero (m : List (Nat × Nat)) (h : ∀ p ∈ m, p.2 = 0)
    (k : Nat) : getOr0 m k = 0 := by
  induction m with
  | nil => simp [getOr0]
  | cons p ps ih =>
      simp only [getOr0]
      split_ifs with hp
      · exact h p (List.mem_cons_self p ps)
      · exact ih fun q hq => h q (List.mem_cons_of_mem p hq)

lemma freqInit_all_zero : ∀ p ∈ freqInit, p.2 = 0 := by
  intro p hp
  simp only [freqInit, List.mem_map] at hp
  obtain ⟨i, _, rfl⟩ := hp
  rfl

lemma getOr0_freqInit (k : Nat) : getOr0 freqInit k = 0 :=
  getOr0_of_all_zero freqInit freqInit_all_zero k

lemma valsSum_freqInit : valsSum freqInit = 0 := by decide

lemma hasKey_freqInit (k : Nat) (h1 : 1 ≤ k) (h2 : k ≤ 25) :
    hasKey freqInit k = true := by
  interval_cases k <;> decide

/-! ## Lemmas about the combinations map (`addCombo`, `getConc`, `hasCombo`) -/

/-- Keys of the combinations map, in insertion order. -/
def comboKeys (m : List (List Nat × List Int)) : List (List Nat) :=
  m.map (fun p => p.1)

lemma getConc_addCombo (m : List (List Nat × List Int)) (k : List Nat)
    (c : Int) (j : List Nat) :
    getConc (addCombo m k c) j = if k = j then getConc m j ++ [c] else getConc m j := by
  induction m with
  | nil =>
      simp only [addCombo, getConc]
      split_ifs <;> simp_all
  | cons p ps ih =>
      by_cases hpk : p.1 = k
      · subst hpk
        simp only [addCombo, if_pos rfl, getConc]
        by_cases hpj : p.1 = j
        · subst hpj; simp
        · simp [hpj]
      · simp only [addCombo, if_neg hpk, getConc]
        by_cases hpj : p.1 = j
        · have : ¬ k = j := fun h => hpk (h ▸ hpj)
          simp [hpj, this]
        · simp [hpj, ih]

lemma hasCombo_addCombo (m : List (List Nat × List Int)) (k : List Nat)
    (c : Int) (j : List Nat) :
    hasCombo (addCombo m k c) j = (hasCombo m j || decide (k = j)) := by
  induction m with
  | nil => simp [addCombo, hasCombo]
  | cons p ps ih =>
      by_cases hpk : p.1 = k
      · subst hpk
        simp only [addCombo, if_pos rfl, hasCombo]
        by_cases hpj : p.1 = j <;> simp [hpj]
      · simp only [addCombo, if_neg hpk, hasCombo, ih]
        by_cases hpj : p.1 = j <;> simp [hpj]

lemma comboKeys_addCombo (m : List (List Nat × List Int)) (k : List Nat) (c : Int) :
    comboKeys (addCombo m k c) =
      if hasCombo m k then comboKeys m else comboKeys m ++ [k] := by
  induction m with
  | nil => simp [addCombo, hasCombo, comboKeys]
  | cons p ps ih =>
      by_cases hpk : p.1 = k
      · simp [addCombo, hpk, hasCombo, comboKeys]
      · have hh : hasCombo (p :: ps) k = hasCombo ps k := by simp [hasCombo, hpk]
        rw [hh]
        simp only [addCombo, if_neg hpk, comboKeys, List.map_cons]
        rw [show List.map (fun p => p.1) (addCombo ps k c) = comboKeys (addCombo ps k c) from rfl,
          ih]
        split_ifs <;> simp [comboKeys]

lemma hasCombo_iff_mem_comboKeys (m : List (List Nat × List Int)) (k : List Nat) :
    hasCombo m k = true ↔ k ∈ comboKeys m := by
  induction m with
  | nil => simp [hasCombo, comboKeys]
  | cons p ps ih =>
      simp only [hasCombo, comboKeys, List.map_cons, List.mem_cons, Bool.or_eq_true,
        decide_eq_true_eq, ih]
      constructor
      · rintro (h | h)
        · exact Or.inl h.symm
        · exact Or.inr h
      · rintro (h | h)
        · exact Or.inl h.symm
        · exact Or.inr h

lemma comboKeys_addCombo_nodup (m : List (List Nat × List Int)) (k : List Nat)
    (c : Int) (h : (comboKeys m).Nodup) : (comboKeys (addCombo m k c)).Nodup := by
  rw [comboKeys_addCombo]
  split_ifs with hk
  · exact h
  · have : k ∉ comboKeys m := fun hmem =>
      (by simpa [hk] using (hasCombo_iff_mem_comboKeys m k).mpr hmem)
    simpa [List.nodup_append] using ⟨h, this⟩

lemma getConc_entry (m : List (List Nat × List Int)) (h : (comboKeys m).Nodup)
    {p : List Nat × List Int} (hp : p ∈ m) : getConc m p.1 = p.2 := by
  induction m with
  | nil => simp at hp
  | cons q qs ih =>
      rcases List.mem_cons.mp hp with rfl | hp'
      · simp [getConc]
      · have hcons : (q.1 :: comboKeys qs).Nodup := by
          simpa only [comboKeys, List.map_cons] using h
        have hq : q.1 ≠ p.1 := by
          have hmem : p.1 ∈ comboKeys qs := List.mem_map.mpr ⟨p, hp', rfl⟩
          have hnot : q.1 ∉ comboKeys qs := (List.nodup_cons.mp hcons).1
          exact fun he => hnot (he ▸ hmem)
        have h' : (comboKeys qs).Nodup := (List.nodup_cons.mp hcons).2
        simp [getConc, hq, ih h' hp']

lemma comboEntry_of_hasCombo (m : List (List Nat × List Int)) (k : List Nat)
    (h : hasCombo m k = true) : (k, getConc m k) ∈ m := by
  induction m with
  | nil => simp [hasCombo] at h
  | cons p ps ih =>
      by_cases hpk : p.1 = k
      · subst hpk
        simp [getConc]
      · simp only [hasCombo, Bool.or_eq_true, decide_eq_true_eq] at h
        rcases h with h | h
        · exact absurd h hpk
        · simp only [getConc, if_neg hpk]
          exact List.mem_cons_of_mem _ (ih h)

/-! ## Characterisations of the forward pass -/

/-- Count of primes (from the fixed prime set) in a draw. -/
def primesInDraw (d : LotofacilDraw) : Nat :=
  (d.numbers.filter (fun n => PRIME_NUMBERS.contains n)).length

/-- Canonical duplicate-detection key of a draw: its numbers sorted ascending. -/
def comboOf (d : LotofacilDraw) : List Nat := sortNumbers d.numbers

/-- Count of values of `cur` that occur in `prev` (the source's
`draw.numbers.filter(n => prevNumbers.has(n)).length`). -/
def sharedCount (cur prev : List Nat) : Nat :=
  (cur.filter (fun n => prev.contains n)).length

/-- The expected `repeatsFromPrevious`: one entry for each draw after the
first, counting its values shared with the immediately preceding draw. -/
def repeatsSpec (draws : List LotofacilDraw) : List Nat :=
  List.zipWith (fun cur prev => sharedCount cur.numbers prev.numbers)
    draws.tail draws

lemma sharedCount_sortNumbers (c p : List Nat) :
    ((sortNumbers c).filter (fun n => (sortNumbers p).contains n)).length =
      sharedCount c p := by
  have h1 : ((sortNumbers c).filter (fun n => (sortNumbers p).contains n)) =
      ((sortNumbers c).filter (fun n => p.contains n)) :=
    List.filter_congr (fun a _ => by rw [contains_sortNumbers])
  rw [h1, filter_sortNumbers_length]
  rfl

lemma aggregate_sums (ds : List LotofacilDraw) : ∀ (prev : Option (List Nat)) (st : AggState),
    (aggregate prev st ds).sums = st.sums ++ ds.map (fun d => d.numbers.sum) := by
  induction ds with
  | nil => intro prev st; simp [aggregate]
  | cons d rest ih =>
      intro prev st
      show (aggregate _ (stepDraw prev st d) rest).sums = _
      rw [ih]
      simp [stepDraw, sortNumbers_sum]

lemma aggregate_parity (ds : List LotofacilDraw) : ∀ (prev : Option (List Nat)) (st : AggState),
    (aggregate prev st ds).totalEven + (aggregate prev st ds).totalOdd =
      st.totalEven + st.totalOdd + (ds.map (fun d => d.numbers.length)).sum := by
  induction ds with
  | nil => intro prev st; simp [aggregate]
  | cons d rest ih =>
      intro prev st
      show (aggregate _ (stepDraw prev st d) rest).totalEven +
          (aggregate _ (stepDraw prev st d) rest).totalOdd = _
      rw [ih]
      have hsplit :
          ((sortNumbers d.numbers).filter (fun n => n % 2 == 0)).length +
            ((sortNumbers d.numbers).filter (fun n => !(n % 2 == 0))).length =
            d.numbers.length := by
        rw [← sortNumbers_length d.numbers]
        generalize sortNumbers d.numbers = l
        induction l with
        | nil => simp
        | cons a as ihl =>
            by_cases ha : a % 2 == 0 <;>
              simp [List.filter_cons, ha] <;> omega
      simp only [stepDraw, List.map_cons, List.sum_cons]
      omega

lemma aggregate_frequency_getOr0 (ds : List LotofacilDraw) :
    ∀ (prev : Option (List Nat)) (st : AggState) (k : Nat),
    getOr0 (aggregate prev st ds).frequency k =
      getOr0 st.frequency k + (ds.map (fun d => d.numbers.count k)).sum := by
  induction ds with
  | nil => intro prev st k; simp [aggregate]
  | cons d rest ih =>
      intro prev st k
      show getOr0 (aggregate _ (stepDraw prev st d) rest).frequency k = _
      rw [ih]
      simp only [stepDraw, getOr0_bumpAll, count_sortNumbers, List.map_cons, List.sum_cons]
      omega

lemma aggregate_frequency_valsSum (ds : List LotofacilDraw) :
    ∀ (prev : Option (List Nat)) (st : AggState),
    valsSum (aggregate prev st ds).frequency =
      valsSum st.frequency + (ds.map (fun d => d.numbers.length)).sum := by
  induction ds with
  | nil => intro prev st; simp [aggregate]
  | cons d rest ih =>
      intro prev st
      show valsSum (aggregate _ (stepDraw prev st d) rest).frequency = _
      rw [ih]
      simp only [stepDraw, valsSum_bumpAll, sortNumbers_length, List.map_cons, List.sum_cons]
      omega

lemma aggregate_frequency_hasKey (ds : List LotofacilDraw) :
    ∀ (prev : Option (List Nat)) (st : AggState) (k : Nat),
    hasKey st.frequency k = true → hasKey (aggregate prev st ds).frequency k = true := by
  induction ds with
  | nil => intro prev st k h; simpa [aggregate] using h
  | cons d rest ih =>
      intro prev st k h
      show hasKey (aggregate _ (stepDraw prev st d) rest).frequency k = true
      refine ih _ _ _ ?_
      simp [stepDraw, hasKey_bumpAll, h]

lemma aggregate_primeCount_getOr0 (ds : List LotofacilDraw) :
    ∀ (prev : Option (List Nat)) (st : AggState) (k : Nat),
    getOr0 (aggregate prev st ds).primeCountMap k =
      getOr0 st.primeCountMap k + ds.countP (fun d => primesInDraw d == k) := by
  induction ds with
  | nil => intro prev st k; simp [aggregate]
  | cons d rest ih =>
      intro prev st k
      show getOr0 (aggregate _ (stepDraw prev st d) rest).primeCountMap k = _
      rw [ih]
      have hp : ((sortNumbers d.numbers).filter (fun n => PRIME_NUMBERS.contains n)).length =
          primesInDraw d := by
        rw [filter_sortNumbers_length]; rfl
      simp only [stepDraw, getOr0_bump, hp, List.countP_cons]
      by_cases h : primesInDraw d = k
      · simp [h]
        omega
      · simp [h]

lemma aggregate_primeCount_valsSum (ds : List LotofacilDraw) :
    ∀ (prev : Option (List Nat)) (st : AggState),
    valsSum (aggregate prev st ds).primeCountMap =
      valsSum st.primeCountMap + ds.length := by
  induction ds with
  | nil => intro prev st; simp [aggregate]
  | cons d rest ih =>
      intro prev st
      show valsSum (aggregate _ (stepDraw prev st d) rest).primeCountMap = _
      rw [ih]
      simp only [stepDraw, valsSum_bump, List.length_cons]
      omega

lemma aggregate_combo_getConc (ds : List LotofacilDraw) :
    ∀ (prev : Option (List Nat)) (st : AggState) (c : List Nat),
    getConc (aggregate prev st ds).combinationsMap c =
      getConc st.combinationsMap c ++
        (ds.filter (fun d => comboOf d == c)).map (fun d => d.concurso) := by
  induction ds with
  | nil => intro prev st c; simp [aggregate]
  | cons d rest ih =>
      intro prev st c
      show getConc (aggregate _ (stepDraw prev st d) rest).combinationsMap c = _
      rw [ih]
      simp only [stepDraw, getConc_addCombo, List.filter_cons]
      by_cases h : sortNumbers d.numbers = c
      · simp [comboOf, h, List.append_assoc]
      · simp [comboOf, h]

lemma aggregate_hasCombo (ds : List LotofacilDraw) :
    ∀ (prev : Option (List Nat)) (st : AggState) (c : List Nat),
    hasCombo (aggregate prev st ds).combinationsMap c =
      (hasCombo st.combinationsMap c || ds.any (fun d => comboOf d == c)) := by
  induction ds with
  | nil => intro prev st c; simp [aggregate]
  | cons d rest ih =>
      intro prev st c
      show hasCombo (aggregate _ (stepDraw prev st d) rest).combinationsMap c = _
      rw [ih]
      simp only [stepDraw, hasCombo_addCombo, List.any_cons]
      by_cases h : sortNumbers d.numbers = c
      · simp [comboOf, h]
      · have hb : (sortNumbers d.numbers == c) = false := beq_eq_false_iff_ne.mpr h
        have hd : decide (sortNumbers d.numbers = c) = false := decide_eq_false h
        simp [comboOf, hb, hd]

lemma aggregate_combo_nodup (ds : List LotofacilDraw) :
    ∀ (prev : Option (List Nat)) (st : AggState),
    (comboKeys st.combinationsMap).Nodup →
      (comboKeys (aggregate prev st ds).combinationsMap).Nodup := by
  induction ds with
  | nil => intro prev st h; simpa [aggregate] using h
  | cons d rest ih =>
      intro prev st h
      show (comboKeys (aggregate _ (stepDraw prev st d) rest).combinationsMap).Nodup
      exact ih _ _ (comboKeys_addCombo_nodup _ _ _ h)

lemma aggregate_repeats (ds : List LotofacilDraw) :
    ∀ (st : AggState) (p : List Nat),
    (aggregate (some (sortNumbers p)) st ds).repeats =
      st.repeats ++
        List.zipWith (fun cur prevNums => sharedCount cur.numbers prevNums)
          ds (p :: ds.map (fun d => d.numbers)) := by
  induction ds with
  | nil => intro st p; simp [aggregate]
  | cons d rest ih =>
      intro st p
      show (aggregate (some (sortNumbers d.numbers)) (stepDraw _ st d) rest).repeats = _
      rw [ih]
      simp only [stepDraw, List.zipWith_cons_cons, List.map_cons]
      rw [sharedCount_sortNumbers]
      simp

lemma calculateStatistics_repeats (draws : List LotofacilDraw) :
    (calculateStatistics draws).repeatsFromPrevious = repeatsSpec draws := by
  cases draws with
  | nil => rfl
  | cons d rest =>
      show (aggregate none initState (d :: rest)).repeats = _
      have h1 : aggregate none initState (d :: rest) =
          aggregate (some (sortNumbers d.numbers)) (stepDraw none initState d) rest := rfl
      rw [h1, aggregate_repeats]
      have h2 : (stepDraw none initState d).repeats = [] := rfl
      rw [h2]
      simp only [List.nil_append, repeatsSpec, List.tail_cons]
      rw [show d.numbers :: rest.map (fun d => d.numbers) =
        (d :: rest).map (fun d => d.numbers) from rfl]
      rw [List.zipWith_map_right rest (d :: rest) (fun d => d.numbers)
        (fun cur prevNums => sharedCount cur.numbers prevNums)]

/-! ## Lemmas about the sum histogram, mode and median -/

lemma getOr0_sumFreq (l : List Nat) (k : Nat) :
    getOr0 (sumFreq l) k = l.count k := by
  have h := getOr0_bumpAll l [] k
  simpa [sumFreq, getOr0] using h

lemma hasKey_sumFreq (l : List Nat) (k : Nat) :
    hasKey (sumFreq l) k = l.contains k := by
  have h := hasKey_bumpAll l [] k
  simpa [sumFreq, hasKey] using h

lemma keysOf_sumFreq_nodup (l : List Nat) : (keysOf (sumFreq l)).Nodup :=
  keysOf_bumpAll_nodup l [] (by simp [keysOf])

lemma sumFreq_ne_nil (l : List Nat) (h : l ≠ []) : sumFreq l ≠ [] := by
  cases l with
  | nil => exact absurd rfl h
  | cons a as =>
      show bumpAll [] (a :: as) ≠ []
      have h1 : bumpAll [] (a :: as) = bumpAll (bump [] a) as := rfl
      rw [h1]
      exact bumpAll_ne_nil as _ (bump_ne_nil [] a)

lemma foldl_max_spec (m : List (Nat × Nat)) : ∀ acc : Nat,
    (m.foldl (fun a p => max a p.2) acc = acc ∨
      ∃ p ∈ m, m.foldl (fun a p => max a p.2) acc = p.2) ∧
    acc ≤ m.foldl (fun a p => max a p.2) acc ∧
    ∀ p ∈ m, p.2 ≤ m.foldl (fun a p => max a p.2) acc := by
  induction m with
  | nil => intro acc; simp
  | cons q qs ih =>
      intro acc
      have h := ih (max acc q.2)
      have hfold : (q :: qs).foldl (fun a p => max a p.2) acc =
          qs.foldl (fun a p => max a p.2) (max acc q.2) := rfl
      refine ⟨?_, ?_, ?_⟩
      · rw [hfold]
        rcases h.1 with heq | ⟨p, hp, hpe⟩
        · rcases max_choice acc q.2 with hm | hm
          · exact Or.inl (by rw [heq, hm])
          · exact Or.inr ⟨q, List.mem_cons_self q qs, by rw [heq, hm]⟩
        · exact Or.inr ⟨p, List.mem_cons_of_mem q hp, hpe⟩
      · rw [hfold]
        exact le_trans (le_max_left acc q.2) h.2.1
      · intro p hp
        rw [hfold]
        rcases List.mem_cons.mp hp with rfl | hp'
        · exact le_trans (le_max_right acc p.2) h.2.1
        · exact h.2.2 p hp'

lemma le_maxFreq (m : List (Nat × Nat)) {p : Nat × Nat} (hp : p ∈ m) :
    p.2 ≤ maxFreq m :=
  (foldl_max_spec m 0).2.2 p hp

lemma maxFreq_attained (m : List (Nat × Nat)) (h : m ≠ []) :
    ∃ p ∈ m, p.2 = maxFreq m := by
  rcases (foldl_max_spec m 0).1 with heq | ⟨p, hp, hpe⟩
  · cases m with
    | nil => exact absurd rfl h
    | cons q qs =>
        have hq := le_maxFreq (q :: qs) (List.mem_cons_self q qs)
        have h0 : maxFreq (q :: qs) = 0 := heq
        exact ⟨q, List.mem_cons_self q qs, by omega⟩
  · exact ⟨p, hp, hpe.symm⟩

lemma mem_jsMode_iff (l : List Nat) (s : Nat) :
    s ∈ jsMode l ↔ s ∈ l ∧ l.count s = maxFreq (sumFreq l) := by
  simp only [jsMode, List.mem_filter, mem_sortNumbers, beq_iff_eq, getOr0_sumFreq]
  constructor
  · rintro ⟨hmem, hcount⟩
    refine ⟨?_, hcount⟩
    have : s ∈ keysOf (sumFreq l) := by simpa [keysOf] using hmem
    have h2 : hasKey (sumFreq l) s = true := (hasKey_iff_mem_keysOf _ _).mpr this
    rw [hasKey_sumFreq] at h2
    exact (List.elem_iff).mp h2
  · rintro ⟨hmem, hcount⟩
    refine ⟨?_, hcount⟩
    have h2 : hasKey (sumFreq l) s = true := by
      rw [hasKey_sumFreq]
      exact (List.elem_iff).mpr hmem
    have : s ∈ keysOf (sumFreq l) := (hasKey_iff_mem_keysOf _ _).mp h2
    simpa [keysOf] using this

lemma jsMode_sorted_lt (l : List Nat) : List.Sorted (· < ·) (jsMode l) := by
  have hnd : (sortNumbers (keysOf (sumFreq l))).Nodup :=
    (sortNumbers_perm _).nodup_iff.mpr (keysOf_sumFreq_nodup l)
  have hs : List.Sorted (· ≤ ·) (sortNumbers (keysOf (sumFreq l))) :=
    sortNumbers_sorted _
  have hlt : List.Sorted (· < ·) (sortNumbers (keysOf (sumFreq l))) :=
    List.Sorted.lt_of_le hs hnd
  exact List.Pairwise.filter _ hlt

lemma jsMode_ne_nil (l : List Nat) (h : l ≠ []) : jsMode l ≠ [] := by
  obtain ⟨p, hp, hpe⟩ := maxFreq_attained (sumFreq l) (sumFreq_ne_nil l h)
  have hkey : p.1 ∈ keysOf (sumFreq l) := List.mem_map.mpr ⟨p, hp, rfl⟩
  have hget : getOr0 (sumFreq l) p.1 = p.2 :=
    getOr0_entry (sumFreq l) (keysOf_sumFreq_nodup l) hp
  have hmem : p.1 ∈ jsMode l := by
    simp only [jsMode, List.mem_filter, mem_sortNumbers, beq_iff_eq]
    exact ⟨hkey, by rw [hget, hpe]⟩
  exact List.ne_nil_of_mem hmem

lemma count_le_maxFreq (l : List Nat) (t : Nat) :
    l.count t ≤ maxFreq (sumFreq l) := by
  by_cases hmem : t ∈ l
  · have h2 : hasKey (sumFreq l) t = true := by
      rw [hasKey_sumFreq]
      exact (List.elem_iff).mpr hmem
    have hentry := entry_of_hasKey (sumFreq l) t h2
    have := le_maxFreq (sumFreq l) hentry
    simpa [getOr0_sumFreq] using this
  · simp [List.count_eq_zero_of_not_mem hmem]

lemma maxFreq_le_count_of_mode (l : List Nat) {s : Nat} (hs : s ∈ jsMode l) :
    maxFreq (sumFreq l) = l.count s :=
  ((mem_jsMode_iff l s).mp hs).2.symm

/-- The median as the spec words it: sort the sums ascending; odd count takes
the middle element, even count averages the two middle elements. -/
def medianSpec (l : List Nat) : ℚ :=
  let s := sortNumbers l
  if l.length % 2 = 1 then ((s.getD (l.length / 2) 0 : Nat) : ℚ)
  else
    (((s.getD (l.length / 2 - 1) 0 : Nat) : ℚ) + ((s.getD (l.length / 2) 0 : Nat) : ℚ)) / 2

lemma jsMedian_eq_medianSpec (l : List Nat) (h : l ≠ []) :
    jsMedian l = JSNum.num (medianSpec l) := by
  have hlen : (sortNumbers l).length = l.length := sortNumbers_length l
  have hpos : 0 < l.length := List.length_pos.mpr h
  by_cases hodd : l.length % 2 = 1
  · have hmid : l.length / 2 < l.length := Nat.div_lt_self hpos (by omega)
    have hmid' : l.length / 2 < (sortNumbers l).length := by rw [hlen]; exact hmid
    have hget : (sortNumbers l)[l.length / 2]? =
        some ((sortNumbers l).get ⟨l.length / 2, hmid'⟩) := by
      rw [List.getElem?_eq_getElem hmid']
      rfl
    simp only [jsMedian, medianSpec, hlen, hodd]
    simp [hget]
  · have heven : l.length % 2 = 0 := by omega
    have h2 : 2 ≤ l.length := by omega
    have hmid : l.length / 2 < l.length := Nat.div_lt_self hpos (by omega)
    have hmid1 : l.length / 2 - 1 < l.length := by omega
    have hmid' : l.length / 2 < (sortNumbers l).length := by rw [hlen]; exact hmid
    have hmid1' : l.length / 2 - 1 < (sortNumbers l).length := by rw [hlen]; exact hmid1
    have hget : (sortNumbers l)[l.length / 2]? =
        some ((sortNumbers l).get ⟨l.length / 2, hmid'⟩) := by
      rw [List.getElem?_eq_getElem hmid']
      rfl
    have hget1 : (sortNumbers l)[l.length / 2 - 1]? =
        some ((sortNumbers l).get ⟨l.length / 2 - 1, hmid1'⟩) := by
      rw [List.getElem?_eq_getElem hmid1']
      rfl
    simp only [jsMedian, medianSpec, hlen, heven]
    simp [hget, hget1]

lemma jsMedian_ne_nan (l : List Nat) (h : l ≠ []) : jsMedian l ≠ JSNum.nan := by
  rw [jsMedian_eq_medianSpec l h]
  exact fun hc => JSNum.noConfusion hc

/-! ## Helpers for the repeat-count and frequency claims -/

lemma sharedCount_eq_card_inter (c p : List Nat) (hc : c.Nodup) :
    sharedCount c p = (c.toFinset ∩ p.toFinset).card := by
  have h1 : (c.filter (fun n => p.contains n)).Nodup := hc.filter _
  rw [sharedCount, ← List.toFinset_card_of_nodup h1, List.toFinset_filter]
  congr 1
  ext a
  simp [List.elem_iff, Finset.mem_inter, Finset.mem_filter, List.mem_toFinset]

lemma sharedCount_le (c p : List Nat) : sharedCount c p ≤ c.length :=
  List.length_filter_le _ c

lemma sum_map_length_eq (ds : List LotofacilDraw)
    (h : ∀ d ∈ ds, d.numbers.length = 15) :
    (ds.map (fun d => d.numbers.length)).sum = 15 * ds.length := by
  induction ds with
  | nil => simp
  | cons d rest ih =>
      simp only [List.map_cons, List.sum_cons, List.length_cons]
      rw [h d (List.mem_cons_self d rest), ih (fun e he => h e (List.mem_cons_of_mem d he))]
      ring

lemma hasCombo_of_getConc_ne_nil (m : List (List Nat × List Int)) (c : List Nat)
    (h : getConc m c ≠ []) : hasCombo m c = true := by
  induction m with
  | nil => exact absurd rfl h
  | cons p ps ih =>
      by_cases hpc : p.1 = c
      · simp [hasCombo, hpc]
      · simp only [getConc, if_neg hpc] at h
        simp [hasCombo, hpc, ih h]

/-! ## Bridges from `calculateStatistics` to the characterisations -/

lemma calculateStatistics_sums (draws : List LotofacilDraw) :
    (aggregate none initState draws).sums = draws.map (fun d => d.numbers.sum) := by
  rw [aggregate_sums]
  simp [initState]

lemma calculateStatistics_sumMedian_eq (draws : List LotofacilDraw) :
    (calculateStatistics draws).sumMedian =
      jsMedian (draws.map (fun d => d.numbers.sum)) := by
  show jsMedian (aggregate none initState draws).sums = _
  rw [calculateStatistics_sums]

lemma calculateStatistics_sumMode_eq (draws : List LotofacilDraw) :
    (calculateStatistics draws).sumMode =
      jsMode (draws.map (fun d => d.numbers.sum)) := by
  show jsMode (aggregate none initState draws).sums = _
  rw [calculateStatistics_sums]

lemma calculateStatistics_frequency_getOr0 (draws : List LotofacilDraw) (k : Nat) :
    getOr0 (calculateStatistics draws).frequency k =
      (draws.map (fun d => d.numbers.count k)).sum := by
  show getOr0 (aggregate none initState draws).frequency k = _
  rw [aggregate_frequency_getOr0]
  simp [initState, getOr0_freqInit]

lemma calculateStatistics_combo_getConc (draws : List LotofacilDraw) (c : List Nat) :
    getConc (aggregate none initState draws).combinationsMap c =
      (draws.filter (fun d => comboOf d == c)).map (fun d => d.concurso) := by
  rw [aggregate_combo_getConc]
  simp [initState, getConc]

lemma calculateStatistics_combo_hasCombo (draws : List LotofacilDraw) (c : List Nat) :
    hasCombo (aggregate none initState draws).combinationsMap c =
      draws.any (fun d => comboOf d == c) := by
  rw [aggregate_hasCombo]
  simp [initState, hasCombo]

lemma calculateStatistics_combo_nodup (draws : List LotofacilDraw) :
    (comboKeys (aggregate none initState draws).combinationsMap).Nodup :=
  aggregate_combo_nodup draws none initState (by simp [initState, comboKeys])

/-! ## Claim theorems -/

/-- Claim C1.  The spec requires that `calculateStatistics` never mutate the
input draws — the canonicalisation used for duplicate detection must operate
on an independent copy.  The code violates this: line 26 of statistics.ts
(`draw.numbers.sort((a, b) => a - b)`) sorts the draw's own stored array in
place, so after the call an unsorted draw's number sequence has been
reordered ascending.  This theorem evaluates the post-call state of the
number sequence at a concrete failing input: a draw supplied in descending
order comes back in ascending order, which differs from what was passed in. -/
theorem calculateStatistics_reorders_input_numbers :
    numbersAfterCalculateStatistics
        { concurso := 1, data := "2024-01-01",
          numbers := [15, 14, 13, 12, 11, 10, 9, 8, 7, 6, 5, 4, 3, 2, 1] } =
      [1, 2, 3, 4, 5, 6, 7, 8, 9, 10, 11, 12, 13, 14, 15]
    ∧ numbersAfterCalculateStatistics
        { concurso := 1, data := "2024-01-01",
          numbers := [15, 14, 13, 12, 11, 10, 9, 8, 7, 6, 5, 4, 3, 2, 1] } ≠
      [15, 14, 13, 12, 11, 10, 9, 8, 7, 6, 5, 4, 3, 2, 1] := by
  constructor
  · decide
  · decide

/-- Claim C2, counterexample.  On the empty input the engine does not signal
any explicit "insufficient data" condition — the function's return type has
no error channel at all — and the report fields produced by division or
out-of-range indexing are silently `NaN`: `sumAvg = totalSum / 0 = 0 / 0`,
both parity averages likewise, and the median averages two `undefined`
reads of the empty sorted array. -/
theorem calculateStatistics_empty_is_silent_nan :
    (calculateStatistics []).sumAvg = JSNum.nan
    ∧ (calculateStatistics []).parityEven = JSNum.nan
    ∧ (calculateStatistics []).parityOdd = JSNum.nan
    ∧ (calculateStatistics []).sumMedian = JSNum.nan := by
  refine ⟨?_, ?_, ?_, ?_⟩ <;> decide

/-- Claim C2, amended.  On `draws.length == 0` the engine does not signal; it
silently returns `NaN` in `sumAvg`, both parity averages and `sumMedian`
(see the counterexample).  For every non-empty input it computes those
fields normally (they are never `NaN`), and in the single-draw case both
`repeatsFromPrevious` and `duplicates` are empty. -/
theorem calculateStatistics_nonempty_normal (draws : List LotofacilDraw)
    (h : draws ≠ []) :
    (calculateStatistics draws).sumAvg ≠ JSNum.nan
    ∧ (calculateStatistics draws).parityEven ≠ JSNum.nan
    ∧ (calculateStatistics draws).parityOdd ≠ JSNum.nan
    ∧ (calculateStatistics draws).sumMedian ≠ JSNum.nan
    ∧ ∀ d : LotofacilDraw, draws = [d] →
        (calculateStatistics draws).repeatsFromPrevious = []
        ∧ (calculateStatistics draws).duplicates = [] := by
  have hn : (draws.length : ℚ) ≠ 0 := by
    have : draws.length ≠ 0 := fun hc => h (List.length_eq_zero.mp hc)
    exact_mod_cast this
  have hdiv : ∀ a : ℚ, jsDiv a (draws.length : ℚ) ≠ JSNum.nan := by
    intro a
    simp [jsDiv, hn]
  refine ⟨hdiv _, hdiv _, hdiv _, ?_, ?_⟩
  · rw [calculateStatistics_sumMedian_eq]
    exact jsMedian_ne_nan _ (by simp [h])
  · rintro d rfl
    constructor
    · rw [calculateStatistics_repeats]
      rfl
    · show ((addCombo [] (sortNumbers d.numbers) d.concurso).filter
          (fun p => 1 < p.2.length)).map
          (fun p => { numbers := p.1, concursos := p.2 : DuplicateEntry }) = []
      simp [addCombo]

/-- Witness for claim C2's amended theorem at a concrete single draw. -/
theorem calculateStatistics_nonempty_normal_witness :
    ([(⟨1, "d", [1, 2, 3, 4, 5, 6, 7, 8, 9, 10, 11, 12, 13, 14, 15]⟩ : LotofacilDraw)] ≠
        ([] : List LotofacilDraw))
    ∧ ((calculateStatistics
          [⟨1, "d", [1, 2, 3, 4, 5, 6, 7, 8, 9, 10, 11, 12, 13, 14, 15]⟩]).sumAvg ≠
          JSNum.nan
      ∧ (calculateStatistics
          [⟨1, "d", [1, 2, 3, 4, 5, 6, 7, 8, 9, 10, 11, 12, 13, 14, 15]⟩]).parityEven ≠
          JSNum.nan
      ∧ (calculateStatistics
          [⟨1, "d", [1, 2, 3, 4, 5, 6, 7, 8, 9, 10, 11, 12, 13, 14, 15]⟩]).parityOdd ≠
          JSNum.nan
      ∧ (calculateStatistics
          [⟨1, "d", [1, 2, 3, 4, 5, 6, 7, 8, 9, 10, 11, 12, 13, 14, 15]⟩]).sumMedian ≠
          JSNum.nan
      ∧ ∀ d : LotofacilDraw,
          [(⟨1, "d", [1, 2, 3, 4, 5, 6, 7, 8, 9, 10, 11, 12, 13, 14, 15]⟩ : LotofacilDraw)] =
            [d] →
          (calculateStatistics
            [⟨1, "d", [1, 2, 3, 4, 5, 6, 7, 8, 9, 10, 11, 12, 13, 14, 15]⟩]).repeatsFromPrevious =
            []
          ∧ (calculateStatistics
            [⟨1, "d", [1, 2, 3, 4, 5, 6, 7, 8, 9, 10, 11, 12, 13, 14, 15]⟩]).duplicates =
            []) :=
  ⟨by decide, calculateStatistics_nonempty_normal _ (by decide)⟩

/-- Claim C3.  The `primeCount` field maps each count value `k` to the number
of draws containing exactly `k` numbers from the fixed prime set
{2, 3, 5, 7, 11, 13, 17, 19, 23}; in particular a single-draw input has the
value `1` at the key equal to that draw's prime count and `0` at every other
key (absent keys read as zero, the record's own `|| 0` convention). -/
theorem calculateStatistics_primeCount_histogram (draws : List LotofacilDraw)
    (k : Nat) :
    getOr0 (calculateStatistics draws).primeCount k =
      draws.countP (fun d => primesInDraw d == k)
    ∧ ∀ d : LotofacilDraw,
        getOr0 (calculateStatistics [d]).primeCount k =
          if primesInDraw d = k then 1 else 0 := by
  have hmain : ∀ ds : List LotofacilDraw,
      getOr0 (calculateStatistics ds).primeCount k =
        ds.countP (fun d => primesInDraw d == k) := by
    intro ds
    show getOr0 (aggregate none initState ds).primeCountMap k = _
    rw [aggregate_primeCount_getOr0]
    simp [initState, getOr0]
  refine ⟨hmain draws, ?_⟩
  intro d
  rw [hmain [d]]
  by_cases hd : primesInDraw d = k <;> simp [List.countP_cons, hd]

/-- Claim C10.  The values of the `primeCount` histogram sum to the number of
draws: every draw is tallied exactly once, none dropped or double-counted. -/
theorem calculateStatistics_primeCount_valsSum (draws : List LotofacilDraw) :
    valsSum (calculateStatistics draws).primeCount = draws.length := by
  show valsSum (aggregate none initState draws).primeCountMap = _
  rw [aggregate_primeCount_valsSum]
  simp [initState, valsSum]

/-- Claim C6.  For inputs whose draws each hold exactly 15 numbers in
[1, 25], the frequency table has an entry for every number 1..25, reads zero
at numbers absent from the input (including on the empty input, where every
entry is present with value zero), and the sum of all its values equals
15 times the number of draws. -/
theorem calculateStatistics_frequency_table (draws : List LotofacilDraw)
    (h15 : ∀ d ∈ draws, d.numbers.length = 15)
    (hrange : ∀ d ∈ draws, ∀ n ∈ d.numbers, 1 ≤ n ∧ n ≤ 25) :
    (∀ k : Nat, 1 ≤ k → k ≤ 25 →
      hasKey (calculateStatistics draws).frequency k = true)
    ∧ (∀ k : Nat, (∀ d ∈ draws, k ∉ d.numbers) →
      getOr0 (calculateStatistics draws).frequency k = 0)
    ∧ valsSum (calculateStatistics draws).frequency = 15 * draws.length := by
  have _ := hrange
  refine ⟨?_, ?_, ?_⟩
  · intro k hk1 hk2
    show hasKey (aggregate none initState draws).frequency k = true
    exact aggregate_frequency_hasKey draws none initState k
      (by simpa [initState] using hasKey_freqInit k hk1 hk2)
  · intro k hk
    rw [calculateStatistics_frequency_getOr0]
    have hgen : ∀ L : List LotofacilDraw, (∀ d ∈ L, k ∉ d.numbers) →
        (L.map (fun d => d.numbers.count k)).sum = 0 := by
      intro L
      induction L with
      | nil => intro _; simp
      | cons d rest ih =>
          intro hL
          simp only [List.map_cons, List.sum_cons]
          rw [List.count_eq_zero_of_not_mem (hL d (List.mem_cons_self d rest)),
            ih (fun e he => hL e (List.mem_cons_of_mem d he))]
    exact hgen draws hk
  · show valsSum (aggregate none initState draws).frequency = _
    rw [aggregate_frequency_valsSum]
    have hinit : valsSum initState.frequency = 0 := valsSum_freqInit
    rw [hinit, sum_map_length_eq draws h15]
    omega

/-- Witness for claim C6 at a concrete two-draw input. -/
theorem calculateStatistics_frequency_table_witness :
    ((∀ d ∈ [(⟨1, "a", [1, 2, 3, 4, 5, 6, 7, 8, 9, 10, 11, 12, 13, 14, 15]⟩ : LotofacilDraw),
        ⟨2, "b", [11, 12, 13, 14, 15, 16, 17, 18, 19, 20, 21, 22, 23, 24, 25]⟩],
        d.numbers.length = 15)
    ∧ (∀ d ∈ [(⟨1, "a", [1, 2, 3, 4, 5, 6, 7, 8, 9, 10, 11, 12, 13, 14, 15]⟩ : LotofacilDraw),
        ⟨2, "b", [11, 12, 13, 14, 15, 16, 17, 18, 19, 20, 21, 22, 23, 24, 25]⟩],
        ∀ n ∈ d.numbers, 1 ≤ n ∧ n ≤ 25))
    ∧ valsSum (calculateStatistics
        [(⟨1, "a", [1, 2, 3, 4, 5, 6, 7, 8, 9, 10, 11, 12, 13, 14, 15]⟩ : LotofacilDraw),
         ⟨2, "b", [11, 12, 13, 14, 15, 16, 17, 18, 19, 20, 21, 22, 23, 24, 25]⟩]).frequency =
      15 * 2 :=
  ⟨⟨by decide, by decide⟩,
    (calculateStatistics_frequency_table _ (by decide) (by decide)).2.2⟩

/-- Claim C7.  For every non-empty input whose draws each hold exactly 15
numbers, the two parity averages add up to exactly 15 (in the exact rational
arithmetic of the embedding): each draw contributes even+odd = 15, so the
equal-weighted averages sum to 15. -/
theorem calculateStatistics_parity_sum (draws : List LotofacilDraw)
    (hne : draws ≠ []) (h15 : ∀ d ∈ draws, d.numbers.length = 15) :
    (calculateStatistics draws).parityEven + (calculateStatistics draws).parityOdd =
      JSNum.num 15 := by
  have hn : (draws.length : ℚ) ≠ 0 := by
    have : draws.length ≠ 0 := fun hc => hne (List.length_eq_zero.mp hc)
    exact_mod_cast this
  have htot : (aggregate none initState draws).totalEven +
      (aggregate none initState draws).totalOdd = 15 * draws.length := by
    have h := aggregate_parity draws none initState
    rw [sum_map_length_eq draws h15] at h
    simpa [initState] using h
  show jsDiv ((aggregate none initState draws).totalEven : ℚ) (draws.length : ℚ) +
      jsDiv ((aggregate none initState draws).totalOdd : ℚ) (draws.length : ℚ) =
      JSNum.num 15
  rw [jsDiv, jsDiv, if_neg hn, if_neg hn]
  show JSNum.add _ _ = _
  rw [JSNum.add]
  congr 1
  have hcast : ((aggregate none initState draws).totalEven : ℚ) +
      ((aggregate none initState draws).totalOdd : ℚ) = 15 * (draws.length : ℚ) := by
    exact_mod_cast congrArg (fun n : Nat => (n : ℚ)) htot
  field_simp
  linarith [hcast]

/-- Witness for claim C7 at a concrete single draw. -/
theorem calculateStatistics_parity_sum_witness :
    (([(⟨1, "a", [1, 2, 3, 4, 5, 6, 7, 8, 9, 10, 11, 12, 13, 14, 15]⟩ : LotofacilDraw)] ≠
        ([] : List LotofacilDraw))
    ∧ ∀ d ∈ [(⟨1, "a", [1, 2, 3, 4, 5, 6, 7, 8, 9, 10, 11, 12, 13, 14, 15]⟩ : LotofacilDraw)],
        d.numbers.length = 15)
    ∧ (calculateStatistics
        [(⟨1, "a", [1, 2, 3, 4, 5, 6, 7, 8, 9, 10, 11, 12, 13, 14, 15]⟩ : LotofacilDraw)]).parityEven +
      (calculateStatistics
        [(⟨1, "a", [1, 2, 3, 4, 5, 6, 7, 8, 9, 10, 11, 12, 13, 14, 15]⟩ : LotofacilDraw)]).parityOdd =
      JSNum.num 15 :=
  ⟨⟨by decide, by decide⟩, calculateStatistics_parity_sum _ (by decide) (by decide)⟩

/-- Claim C8.  For every non-empty input, `sumMode` is non-empty, lists
values in strictly ascending order, contains only per-draw sum values whose
frequency among the per-draw sums is maximal, and contains every per-draw
sum value of maximal frequency. -/
theorem calculateStatistics_sumMode_spec (draws : List LotofacilDraw)
    (hne : draws ≠ []) :
    (calculateStatistics draws).sumMode ≠ []
    ∧ List.Sorted (· < ·) (calculateStatistics draws).sumMode
    ∧ (∀ s ∈ (calculateStatistics draws).sumMode,
        s ∈ draws.map (fun d => d.numbers.sum)
        ∧ ∀ t, (draws.map (fun d => d.numbers.sum)).count t ≤
            (draws.map (fun d => d.numbers.sum)).count s)
    ∧ (∀ s ∈ draws.map (fun d => d.numbers.sum),
        (∀ t, (draws.map (fun d => d.numbers.sum)).count t ≤
            (draws.map (fun d => d.numbers.sum)).count s) →
        s ∈ (calculateStatistics draws).sumMode) := by
  rw [calculateStatistics_sumMode_eq]
  have hlne : draws.map (fun d => d.numbers.sum) ≠ [] := by simp [hne]
  refine ⟨jsMode_ne_nil _ hlne, jsMode_sorted_lt _, ?_, ?_⟩
  · intro s hs
    have h := (mem_jsMode_iff _ s).mp hs
    refine ⟨h.1, fun t => ?_⟩
    rw [h.2]
    exact count_le_maxFreq _ t
  · intro s hsmem hmax
    rw [mem_jsMode_iff]
    refine ⟨hsmem, ?_⟩
    have h1 := count_le_maxFreq (draws.map (fun d => d.numbers.sum)) s
    obtain ⟨p, hp, hpe⟩ :=
      maxFreq_attained (sumFreq (draws.map (fun d => d.numbers.sum)))
        (sumFreq_ne_nil _ hlne)
    have hcnt : (draws.map (fun d => d.numbers.sum)).count p.1 = p.2 := by
      have h := getOr0_entry (sumFreq (draws.map (fun d => d.numbers.sum)))
        (keysOf_sumFreq_nodup _) hp
      rw [getOr0_sumFreq] at h
      exact h
    have h2 : maxFreq (sumFreq (draws.map (fun d => d.numbers.sum))) ≤
        (draws.map (fun d => d.numbers.sum)).count s := by
      rw [← hpe, ← hcnt]
      exact hmax p.1
    omega

/-- Witness for claim C8 at a concrete two-draw input (sums 120 and 121, so
both are modes and the mode list is the ascending pair). -/
theorem calculateStatistics_sumMode_spec_witness :
    ([(⟨1, "a", [1, 2, 3, 4, 5, 6, 7, 8, 9, 10, 11, 12, 13, 14, 15]⟩ : LotofacilDraw),
      ⟨2, "b", [1, 2, 3, 4, 5, 6, 7, 8, 9, 10, 11, 12, 13, 14, 16]⟩] ≠
      ([] : List LotofacilDraw))
    ∧ (calculateStatistics
        [(⟨1, "a", [1, 2, 3, 4, 5, 6, 7, 8, 9, 10, 11, 12, 13, 14, 15]⟩ : LotofacilDraw),
         ⟨2, "b", [1, 2, 3, 4, 5, 6, 7, 8, 9, 10, 11, 12, 13, 14, 16]⟩]).sumMode ≠ []
    ∧ (calculateStatistics
        [(⟨1, "a", [1, 2, 3, 4, 5, 6, 7, 8, 9, 10, 11, 12, 13, 14, 15]⟩ : LotofacilDraw),
         ⟨2, "b", [1, 2, 3, 4, 5, 6, 7, 8, 9, 10, 11, 12, 13, 14, 16]⟩]).sumMode =
      [120, 121] :=
  ⟨by decide,
    (calculateStatistics_sumMode_spec _ (by decide)).1,
    by decide⟩

/-- Claim C9.  For every non-empty input, `sumMedian` equals the median of
the per-draw sums: sort them ascending and take the middle element for an
odd count or the mean of the two middle elements for an even count
(`medianSpec` states exactly that computation). -/
theorem calculateStatistics_sumMedian_spec (draws : List LotofacilDraw)
    (hne : draws ≠ []) :
    (calculateStatistics draws).sumMedian =
      JSNum.num (medianSpec (draws.map (fun d => d.numbers.sum))) := by
  rw [calculateStatistics_sumMedian_eq]
  exact jsMedian_eq_medianSpec _ (by simp [hne])

/-- Witness for claim C9: three draws with sums 180, 190 and 180 have median
180 (sorted 180, 180, 190; middle element 180). -/
theorem calculateStatistics_sumMedian_spec_witness :
    ([(⟨1, "a", [5, 6, 7, 8, 9, 10, 11, 12, 13, 14, 15, 16, 17, 18, 19]⟩ : LotofacilDraw),
      ⟨2, "b", [5, 6, 7, 8, 9, 20, 11, 12, 13, 14, 15, 16, 17, 18, 19]⟩,
      ⟨3, "c", [5, 6, 7, 8, 9, 10, 11, 12, 13, 14, 15, 16, 17, 18, 19]⟩] ≠
      ([] : List LotofacilDraw))
    ∧ (calculateStatistics
        [(⟨1, "a", [5, 6, 7, 8, 9, 10, 11, 12, 13, 14, 15, 16, 17, 18, 19]⟩ : LotofacilDraw),
         ⟨2, "b", [5, 6, 7, 8, 9, 20, 11, 12, 13, 14, 15, 16, 17, 18, 19]⟩,
         ⟨3, "c", [5, 6, 7, 8, 9, 10, 11, 12, 13, 14, 15, 16, 17, 18, 19]⟩]).sumMedian =
      JSNum.num 180 :=
  ⟨by decide, by
    rw [calculateStatistics_sumMedian_spec _ (by decide)]
    decide⟩

/-- Claim C5.  `repeatsFromPrevious` has length `max(draws.length - 1, 0)`
(natural subtraction), every entry is at most 15, and the entry at position
`i` is the size of the intersection of the number sets of the draws at
positions `i + 1` and `i` in input order. -/
theorem calculateStatistics_repeats_spec (draws : List LotofacilDraw)
    (h15 : ∀ d ∈ draws, d.numbers.length = 15)
    (hnd : ∀ d ∈ draws, d.numbers.Nodup) :
    (calculateStatistics draws).repeatsFromPrevious.length = draws.length - 1
    ∧ (∀ r ∈ (calculateStatistics draws).repeatsFromPrevious, r ≤ 15)
    ∧ ∀ i : Nat, i + 1 < draws.length →
        (calculateStatistics draws).repeatsFromPrevious.getD i 0 =
          ((draws.getD (i + 1) ⟨0, "", []⟩).numbers.toFinset ∩
            (draws.getD i ⟨0, "", []⟩).numbers.toFinset).card := by
  rw [calculateStatistics_repeats]
  refine ⟨by simp [repeatsSpec], ?_, ?_⟩
  · intro r hr
    obtain ⟨i, hival⟩ := List.mem_iff_getElem?.mp hr
    rw [repeatsSpec] at hival
    obtain ⟨x, y, hx, hy, hf⟩ := List.getElem?_zipWith_eq_some.mp hival
    have hxmem : x ∈ draws := (List.tail_sublist draws).mem (List.getElem?_mem hx)
    have hlen : x.numbers.length = 15 := h15 x hxmem
    calc r = sharedCount x.numbers y.numbers := hf.symm
      _ ≤ x.numbers.length := sharedCount_le _ _
      _ = 15 := hlen
  · intro i hi
    have hi' : i < draws.length := by omega
    obtain ⟨a, ha⟩ : ∃ a, draws[i]? = some a := ⟨_, List.getElem?_eq_getElem hi'⟩
    obtain ⟨b, hb⟩ : ∃ b, draws[i + 1]? = some b := ⟨_, List.getElem?_eq_getElem hi⟩
    have hgetDa : draws.getD i ⟨0, "", []⟩ = a := by
      rw [List.getD_eq_getElem?_getD, ha]
      rfl
    have hgetDb : draws.getD (i + 1) ⟨0, "", []⟩ = b := by
      rw [List.getD_eq_getElem?_getD, hb]
      rfl
    have hz : (repeatsSpec draws)[i]? = some (sharedCount b.numbers a.numbers) := by
      rw [repeatsSpec, List.getElem?_zipWith, List.getElem?_tail, hb, ha]
    rw [List.getD_eq_getElem?_getD, hz, hgetDa, hgetDb]
    have hbmem : b ∈ draws := List.getElem?_mem hb
    exact sharedCount_eq_card_inter b.numbers a.numbers (hnd b hbmem)

/-- Witness for claim C5 at the spec's two-draw scenario: `[1..15]` followed
by `[1..14, 16]` shares 14 numbers, so `repeatsFromPrevious = [14]`. -/
theorem calculateStatistics_repeats_spec_witness :
    ((∀ d ∈ [(⟨1, "a", [1, 2, 3, 4, 5, 6, 7, 8, 9, 10, 11, 12, 13, 14, 15]⟩ : LotofacilDraw),
        ⟨2, "b", [1, 2, 3, 4, 5, 6, 7, 8, 9, 10, 11, 12, 13, 14, 16]⟩],
        d.numbers.length = 15)
    ∧ (∀ d ∈ [(⟨1, "a", [1, 2, 3, 4, 5, 6, 7, 8, 9, 10, 11, 12, 13, 14, 15]⟩ : LotofacilDraw),
        ⟨2, "b", [1, 2, 3, 4, 5, 6, 7, 8, 9, 10, 11, 12, 13, 14, 16]⟩],
        d.numbers.Nodup))
    ∧ (calculateStatistics
        [(⟨1, "a", [1, 2, 3, 4, 5, 6, 7, 8, 9, 10, 11, 12, 13, 14, 15]⟩ : LotofacilDraw),
         ⟨2, "b", [1, 2, 3, 4, 5, 6, 7, 8, 9, 10, 11, 12, 13, 14, 16]⟩]).repeatsFromPrevious.length =
      2 - 1
    ∧ (calculateStatistics
        [(⟨1, "a", [1, 2, 3, 4, 5, 6, 7, 8, 9, 10, 11, 12, 13, 14, 15]⟩ : LotofacilDraw),
         ⟨2, "b", [1, 2, 3, 4, 5, 6, 7, 8, 9, 10, 11, 12, 13, 14, 16]⟩]).repeatsFromPrevious =
      [14] :=
  ⟨⟨by decide, by decide⟩,
    (calculateStatistics_repeats_spec _ (by decide) (by decide)).1,
    by decide⟩

/-- Claim C4.  The duplicates list has exactly one entry per canonical
(sorted) combination occurring in more than one draw: entry keys are
pairwise distinct sorted sequences; every entry's contest list is exactly
the contest identifiers of the draws sharing that canonical combination, in
input order, and there are at least two of them; every canonical combination
shared by more than one draw is reported; and canonicalisation is
order-insensitive: permuting a draw's numbers never changes its key. -/
theorem calculateStatistics_duplicates_spec (draws : List LotofacilDraw) :
    ((calculateStatistics draws).duplicates.map (fun e => e.numbers)).Nodup
    ∧ (∀ e ∈ (calculateStatistics draws).duplicates,
        List.Sorted (· ≤ ·) e.numbers
        ∧ e.concursos =
            (draws.filter (fun d => comboOf d == e.numbers)).map (fun d => d.concurso)
        ∧ 1 < (draws.filter (fun d => comboOf d == e.numbers)).length)
    ∧ (∀ c : List Nat, 1 < (draws.filter (fun d => comboOf d == c)).length →
        ∃ e ∈ (calculateStatistics draws).duplicates, e.numbers = c)
    ∧ ∀ d₁ d₂ : LotofacilDraw, d₁.numbers.Perm d₂.numbers → comboOf d₁ = comboOf d₂ := by
  have hdup : (calculateStatistics draws).duplicates =
      ((aggregate none initState draws).combinationsMap.filter
        (fun p => 1 < p.2.length)).map
        (fun p => { numbers := p.1, concursos := p.2 }) := rfl
  have hnodup := calculateStatistics_combo_nodup draws
  refine ⟨?_, ?_, ?_, ?_⟩
  · rw [hdup, List.map_map]
    have hc : ((fun e : DuplicateEntry => e.numbers) ∘
        (fun p : List Nat × List Int =>
          ({ numbers := p.1, concursos := p.2 } : DuplicateEntry))) =
        fun p : List Nat × List Int => p.1 := rfl
    rw [hc]
    have hsub : ((aggregate none initState draws).combinationsMap.filter
        (fun p => 1 < p.2.length)).Sublist
        (aggregate none initState draws).combinationsMap :=
      List.filter_sublist _
    have hsubm := hsub.map (fun p : List Nat × List Int => p.1)
    exact List.Nodup.sublist hsubm hnodup
  · intro e he
    rw [hdup] at he
    obtain ⟨p, hpfilter, hpe⟩ := List.mem_map.mp he
    have hpm : p ∈ (aggregate none initState draws).combinationsMap :=
      (List.mem_filter.mp hpfilter).1
    have hplen : 1 < p.2.length :=
      of_decide_eq_true (List.mem_filter.mp hpfilter).2
    have hgc : getConc (aggregate none initState draws).combinationsMap p.1 = p.2 :=
      getConc_entry _ hnodup hpm
    have hval : p.2 = (draws.filter (fun d => comboOf d == p.1)).map
        (fun d => d.concurso) := by
      rw [← hgc, calculateStatistics_combo_getConc]
    have hen : e.numbers = p.1 := by rw [← hpe]
    have hec : e.concursos = p.2 := by rw [← hpe]
    refine ⟨?_, ?_, ?_⟩
    · have hhas : hasCombo (aggregate none initState draws).combinationsMap p.1 = true :=
        (hasCombo_iff_mem_comboKeys _ _).mpr (List.mem_map.mpr ⟨p, hpm, rfl⟩)
      rw [calculateStatistics_combo_hasCombo] at hhas
      obtain ⟨d, hd, hdc⟩ := List.any_eq_true.mp hhas
      have hdc' : comboOf d = p.1 := by simpa using hdc
      rw [hen, ← hdc', comboOf]
      exact sortNumbers_sorted _
    · rw [hec, hen, hval]
    · rw [hen]
      have hlm : (draws.filter (fun d => comboOf d == p.1)).length = p.2.length := by
        rw [hval, List.length_map]
      omega
  · intro c hc
    have hgclen : 1 < (getConc (aggregate none initState draws).combinationsMap c).length := by
      rw [calculateStatistics_combo_getConc, List.length_map]
      exact hc
    have hne : getConc (aggregate none initState draws).combinationsMap c ≠ [] := by
      intro h0
      rw [h0] at hgclen
      simp at hgclen
    have hhas := hasCombo_of_getConc_ne_nil _ c hne
    have hentry := comboEntry_of_hasCombo _ c hhas
    refine ⟨(⟨c, getConc (aggregate none initState draws).combinationsMap c⟩ :
      DuplicateEntry), ?_, rfl⟩
    rw [hdup]
    exact List.mem_map.mpr
      ⟨(c, getConc (aggregate none initState draws).combinationsMap c),
        List.mem_filter.mpr ⟨hentry, by simpa using hgclen⟩, rfl⟩
  · intro d₁ d₂ h
    exact sortNumbers_eq_of_perm h

/-- Witness for claim C4 at the spec's scenario: the same 15 numbers given
in reversed and ascending order under contest ids 10 and 20 are reported as
one duplicate entry with the canonical ascending key. -/
theorem calculateStatistics_duplicates_spec_witness :
    (1 < (([(⟨10, "x", [15, 14, 13, 12, 11, 10, 9, 8, 7, 6, 5, 4, 3, 2, 1]⟩ : LotofacilDraw),
        ⟨20, "y", [1, 2, 3, 4, 5, 6, 7, 8, 9, 10, 11, 12, 13, 14, 15]⟩]).filter
        (fun d => comboOf d == [1, 2, 3, 4, 5, 6, 7, 8, 9, 10, 11, 12, 13, 14, 15])).length)
    ∧ ∃ e ∈ (calculateStatistics
        [(⟨10, "x", [15, 14, 13, 12, 11, 10, 9, 8, 7, 6, 5, 4, 3, 2, 1]⟩ : LotofacilDraw),
         ⟨20, "y", [1, 2, 3, 4, 5, 6, 7, 8, 9, 10, 11, 12, 13, 14, 15]⟩]).duplicates,
        e.numbers = [1, 2, 3, 4, 5, 6, 7, 8, 9, 10, 11, 12, 13, 14, 15] :=
  ⟨by decide, (calculateStatistics_duplicates_spec _).2.2.1 _ (by decide)⟩
